import Mathlib

set_option maxRecDepth 8000

/-!
# Verification of the SRT/WEBVTT caption parsing-and-merging core

Shallow embedding of the core logic of `src/app.py` of the
srt-to-json-microservice repository: `parse_time`, `combine_captions` and
`parse_srt`.  Python strings are modelled as `List Char`; times are `Int`
(Python integers; the merge test subtracts times, which may be negative);
fallible code returns `Except` over the error message text.

The two regular expressions of the source
(`(\d+):\d+:\d+,\d+` and friends in `parse_time`, and
`(\d+:\d+:\d+[,\.]\d+) --> (\d+:\d+:\d+[,\.]\d+)` in `parse_srt`)
are embedded as deterministic leftmost-match scanners: for these patterns a
greedy digit run followed by a non-digit literal never benefits from
backtracking (a shortened `\d+` run is necessarily followed by a digit,
which can match neither `:` nor `,` nor `.` nor a space), so the Python
matcher's behaviour is exactly "maximal digit run, then check the literal",
tried at each start position from the left.  `\d` is modelled as the ASCII
digits and `str.strip` as stripping the ASCII whitespace characters.
-/

/-- ASCII whitespace stripped by Python's `str.strip()`. -/
def isPySpace (c : Char) : Bool :=
  c = ' ' || c = '\t' || c = '\n' || c = '\r' || c = '\x0b' || c = '\x0c'

/-- Python `s.strip()`. -/
def pyStrip (s : List Char) : List Char :=
  ((s.dropWhile isPySpace).reverse.dropWhile isPySpace).reverse

/-- Python `s.split('\n')`. -/
def splitLines : List Char → List (List Char)
  | [] => [[]]
  | '\n' :: rest => [] :: splitLines rest
  | c :: rest =>
    match splitLines rest with
    | [] => [[c]]
    | l :: ls => (c :: l) :: ls

/-- Python `s.split('\n\n')` (leftmost, non-overlapping separators). -/
def splitBlocks : List Char → List (List Char)
  | [] => [[]]
  | '\n' :: '\n' :: rest => [] :: splitBlocks rest
  | c :: rest =>
    match splitBlocks rest with
    | [] => [[c]]
    | l :: ls => (c :: l) :: ls

/-- Python `'\n'.join(lines)`. -/
def joinLines (lines : List (List Char)) : List Char :=
  List.intercalate ['\n'] lines

/-- Python substring containment `pat in s`. -/
def containsSub (pat : List Char) : List Char → Bool
  | [] => pat.isPrefixOf []
  | c :: rest => pat.isPrefixOf (c :: rest) || containsSub pat rest

/-- Maximal digit run at the front of the string, and the rest (`\d+` greedy). -/
def takeDigits (s : List Char) : List Char × List Char :=
  (s.takeWhile Char.isDigit, s.dropWhile Char.isDigit)

/-- Python `int` on a run of decimal digit characters. -/
def digitsToNat (l : List Char) : Nat :=
  l.foldl (fun a c => a * 10 + (c.toNat - 48)) 0

/-- All characters are decimal digits. -/
def allDigits (l : List Char) : Bool :=
  l.all Char.isDigit

/-- Match of `(\d+):(\d+):(\d+),(\d+)` starting at the head of the string
(the four component patterns of `parse_time` share one match region). -/
def matchTimeAt (s : List Char) : Option (Nat × Nat × Nat × Nat) :=
  match takeDigits s with
  | (r1, ':' :: s2) =>
    if r1 = [] then none else
    match takeDigits s2 with
    | (r2, ':' :: s4) =>
      if r2 = [] then none else
      match takeDigits s4 with
      | (r3, ',' :: s6) =>
        if r3 = [] then none else
        match takeDigits s6 with
        | (r4, _) =>
          if r4 = [] then none else
          some (digitsToNat r1, digitsToNat r2, digitsToNat r3, digitsToNat r4)
      | _ => none
    | _ => none
  | _ => none

/-- Leftmost match of the `parse_time` pattern (`re.findall(...)[0]`). -/
def findTime : List Char → Option (Nat × Nat × Nat × Nat)
  | [] => none
  | c :: rest =>
    match matchTimeAt (c :: rest) with
    | some r => some r
    | none => findTime rest

/-- `parse_time` of `src/app.py`: milliseconds from an `H:MM:SS,mmm` string,
`none` when the component regexes find no match (the `IndexError` branch,
re-raised as `ValueError("Time string is in an incorrect format.")`). -/
def parse_time (time_string : List Char) : Option Nat :=
  match findTime time_string with
  | some (hours, minutes, seconds, milliseconds) =>
    some ((hours * 3600 + minutes * 60 + seconds) * 1000 + milliseconds)
  | none => none

/-- The literal ` --> ` of the timing regex (also the membership test
`' --> ' in line`). -/
def arrowToken : List Char := " --> ".data

/-- Match of the timestamp group `\d+:\d+:\d+[,\.]\d+` at the head of the
string: the matched text and the rest of the string. -/
def matchGroupAt (s : List Char) : Option (List Char × List Char) :=
  match takeDigits s with
  | (r1, ':' :: s2) =>
    if r1 = [] then none else
    match takeDigits s2 with
    | (r2, ':' :: s4) =>
      if r2 = [] then none else
      match takeDigits s4 with
      | (r3, c :: s6) =>
        if r3 = [] then none else
        if c = ',' || c = '.' then
          match takeDigits s6 with
          | (r4, s7) =>
            if r4 = [] then none else
            some (r1 ++ ':' :: (r2 ++ ':' :: (r3 ++ c :: r4)), s7)
        else none
      | _ => none
    | _ => none
  | _ => none

/-- Match of the full two-timestamp timing pattern at the head of the string,
returning the two captured groups. -/
def matchTimingAt (s : List Char) : Option (List Char × List Char) :=
  match matchGroupAt s with
  | none => none
  | some (g1, rest) =>
    if arrowToken.isPrefixOf rest then
      match matchGroupAt (rest.drop 5) with
      | none => none
      | some (g2, _) => some (g1, g2)
    else none

/-- `re.search` of the timing pattern: leftmost match over all start
positions. -/
def searchTiming : List Char → Option (List Char × List Char)
  | [] => none
  | c :: rest =>
    match matchTimingAt (c :: rest) with
    | some r => some r
    | none => searchTiming rest

/-- Python `s.replace('.', ',')`, character by character. -/
def dotToComma (c : Char) : Char :=
  if c = '.' then ',' else c

/-- A raw parsed subtitle record (the dictionaries collected in `srt_list`). -/
structure RawCaption where
  index : Nat
  content : List Char
  start : Int
  «end» : Int
deriving Repr, DecidableEq

/-- A combined subtitle record (the dictionaries of `combined_list`). -/
structure CombinedCaption where
  content : List Char
  start : Int
  «end» : Int
deriving Repr, DecidableEq

/-- The merge test of `combine_captions`:
`(char_limit is not None and len(new_caption) <= char_limit) or
 (millis_limit is not None and caption['end'] - start_time <= millis_limit)`. -/
def mergeCond (char_limit millis_limit : Option Int)
    (new_caption : List Char) (capEnd start_time : Int) : Bool :=
  (match char_limit with
   | some l => decide ((new_caption.length : Int) ≤ l)
   | none => false) ||
  (match millis_limit with
   | some l => decide (capEnd - start_time ≤ l)
   | none => false)

/-- One iteration of the loop body of `combine_captions`; the state is
`(combined_list, current_caption, start_time)`. -/
def combineStep (char_limit millis_limit : Option Int)
    (acc : List CombinedCaption × List Char × Int) (caption : RawCaption) :
    List CombinedCaption × List Char × Int :=
  let trimmed_content := pyStrip caption.content
  if trimmed_content = [] then acc
  else if acc.2.1 = [] then (acc.1, trimmed_content, caption.start)
  else
    let new_caption := acc.2.1 ++ ' ' :: trimmed_content
    if mergeCond char_limit millis_limit new_caption caption.«end» acc.2.2 then
      (acc.1, new_caption, acc.2.2)
    else
      (acc.1 ++ [⟨acc.2.1, acc.2.2, caption.start⟩], trimmed_content, caption.start)

/-- `combine_captions` of `src/app.py`. -/
def combine_captions (srt_list : List RawCaption)
    (char_limit millis_limit : Option Int) : List CombinedCaption :=
  let res := srt_list.foldl (combineStep char_limit millis_limit) ([], [], 0)
  if res.2.1 = [] then res.1
  else
    match srt_list.getLast? with
    | some lastCap => res.1 ++ [⟨res.2.1, res.2.2, lastCap.«end»⟩]
    | none => res.1

/-- Error text of the empty-input check. -/
def emptyErrMsg : List Char := "The input text provided is empty.".data

/-- Error text when a block's start time exceeds its end time
(the inner `ValueError` wrapped by `Error parsing block:`). -/
def blockErrMsg (block : List Char) : List Char :=
  ("Error parsing block: Start time must be less than or equal to " ++
   "end time in block: ").data ++ block

/-- Error text when `parse_time` fails inside a block
(`ValueError("Time string is in an incorrect format.")` wrapped by the
block-level handler). -/
def timeErrMsg : List Char :=
  "Error parsing block: Time string is in an incorrect format.".data

/-- The per-block body of the loop of `parse_srt`: `ok none` when the block
is skipped, `ok (some record)` when a subtitle is extracted, `error` when
the block aborts the parse. -/
def parseBlock (block : List Char) (idx : Nat) :
    Except (List Char) (Option RawCaption) :=
  if pyStrip block = [] then .ok none
  else
    let lines := splitLines block
    match lines.findIdx? (fun line => containsSub arrowToken line) with
    | none => .ok none
    | some i =>
      match searchTiming (lines.getD i []) with
      | none => .ok none
      | some (g1, g2) =>
        match parse_time (g1.map dotToComma) with
        | none => .error timeErrMsg
        | some start_time =>
          match parse_time (g2.map dotToComma) with
          | none => .error timeErrMsg
          | some end_time =>
            if start_time > end_time then .error (blockErrMsg block)
            else .ok (some ⟨idx,
              pyStrip (joinLines (lines.drop (i + 1))),
              (start_time : Int), (end_time : Int)⟩)

/-- The block loop of `parse_srt`: first error aborts, skipped blocks do not
advance the index counter. -/
def parseBlocks : List (List Char) → Nat → Except (List Char) (List RawCaption)
  | [], _ => .ok []
  | b :: bs, idx =>
    match parseBlock b idx with
    | .error e => .error e
    | .ok none => parseBlocks bs idx
    | .ok (some cap) =>
      match parseBlocks bs (idx + 1) with
      | .error e => .error e
      | .ok caps => .ok (cap :: caps)

/-- The metadata test of the WEBVTT header loop:
`lines[0].startswith('WEBVTT') or ': ' in lines[0] or not lines[0].strip()`. -/
def isMetaLine (l : List Char) : Bool :=
  "WEBVTT".data.isPrefixOf l || containsSub [':', ' '] l || (pyStrip l).isEmpty

/-- The `while ... lines.pop(0)` loop removing header and metadata lines. -/
def dropMeta : List (List Char) → List (List Char)
  | [] => []
  | l :: ls => if isMetaLine l then dropMeta ls else l :: ls

/-- The WEBVTT header-removal step of `parse_srt`: when the first line of the
stripped text starts with `WEBVTT`, the header and metadata lines are dropped
and the remaining lines re-joined; otherwise the input is left untouched. -/
def headerStrip (srt_string : List Char) : List Char :=
  let lines := splitLines (pyStrip srt_string)
  if "WEBVTT".data.isPrefixOf (lines.headD []) then
    joinLines (dropMeta lines)
  else srt_string

/-- `parse_srt` of `src/app.py`. -/
def parse_srt (srt_string : List Char) (char_limit millis_limit : Option Int) :
    Except (List Char) (List CombinedCaption) :=
  if pyStrip srt_string = [] then .error emptyErrMsg
  else
    match parseBlocks (splitBlocks (headerStrip srt_string)) 1 with
    | .error e => .error e
    | .ok srt_list => .ok (combine_captions srt_list char_limit millis_limit)

/-! ## Utility lemmas on digit runs and decimal notation -/

theorem takeDigits_append (ds rest : List Char)
    (hds : ∀ c ∈ ds, c.isDigit = true)
    (hrest : ∀ c, rest.head? = some c → c.isDigit = false) :
    takeDigits (ds ++ rest) = (ds, rest) := by
  unfold takeDigits
  cases rest with
  | nil =>
    have e1 := @List.takeWhile_append_of_pos _ Char.isDigit ds [] hds
    have e2 := @List.dropWhile_append_of_pos _ Char.isDigit ds [] hds
    simp_all
  | cons c t =>
    have hc : c.isDigit = false := hrest c rfl
    have e1 := @List.takeWhile_append_of_pos _ Char.isDigit ds (c :: t) hds
    have e2 := @List.dropWhile_append_of_pos _ Char.isDigit ds (c :: t) hds
    simp_all [List.takeWhile_cons, List.dropWhile_cons]

theorem matchTimeAt_runs (r1 r2 r3 r4 : List Char)
    (h1 : r1 ≠ []) (d1 : ∀ c ∈ r1, c.isDigit = true)
    (h2 : r2 ≠ []) (d2 : ∀ c ∈ r2, c.isDigit = true)
    (h3 : r3 ≠ []) (d3 : ∀ c ∈ r3, c.isDigit = true)
    (h4 : r4 ≠ []) (d4 : ∀ c ∈ r4, c.isDigit = true) :
    matchTimeAt (r1 ++ ':' :: (r2 ++ ':' :: (r3 ++ ',' :: r4))) =
      some (digitsToNat r1, digitsToNat r2, digitsToNat r3, digitsToNat r4) := by
  have e1 : takeDigits (r1 ++ ':' :: (r2 ++ ':' :: (r3 ++ ',' :: r4))) =
      (r1, ':' :: (r2 ++ ':' :: (r3 ++ ',' :: r4))) :=
    takeDigits_append _ _ d1 (by intro c hc; cases hc; decide)
  have e2 : takeDigits (r2 ++ ':' :: (r3 ++ ',' :: r4)) =
      (r2, ':' :: (r3 ++ ',' :: r4)) :=
    takeDigits_append _ _ d2 (by intro c hc; cases hc; decide)
  have e3 : takeDigits (r3 ++ ',' :: r4) = (r3, ',' :: r4) :=
    takeDigits_append _ _ d3 (by intro c hc; cases hc; decide)
  have e4 : takeDigits r4 = (r4, []) := by
    simpa using takeDigits_append r4 [] d4 (by intro c hc; cases hc)
  unfold matchTimeAt
  rw [e1]
  simp only [h1, if_false, reduceIte]
  rw [e2]
  simp only [h2, if_false, reduceIte]
  rw [e3]
  simp only [h3, if_false, reduceIte]
  rw [e4]
  simp only [h4, if_false, reduceIte]

theorem parse_time_runs (r1 r2 r3 r4 : List Char)
    (h1 : r1 ≠ []) (d1 : ∀ c ∈ r1, c.isDigit = true)
    (h2 : r2 ≠ []) (d2 : ∀ c ∈ r2, c.isDigit = true)
    (h3 : r3 ≠ []) (d3 : ∀ c ∈ r3, c.isDigit = true)
    (h4 : r4 ≠ []) (d4 : ∀ c ∈ r4, c.isDigit = true) :
    parse_time (r1 ++ ':' :: (r2 ++ ':' :: (r3 ++ ',' :: r4))) =
      some ((digitsToNat r1 * 3600 + digitsToNat r2 * 60 + digitsToNat r3) * 1000
        + digitsToNat r4) := by
  have hm := matchTimeAt_runs r1 r2 r3 r4 h1 d1 h2 d2 h3 d3 h4 d4
  obtain ⟨c, t, rfl⟩ : ∃ c t, r1 = c :: t := by
    cases r1 with
    | nil => exact absurd rfl h1
    | cons c t => exact ⟨c, t, rfl⟩
  unfold parse_time findTime
  simp only [List.cons_append] at hm ⊢
  rw [hm]

/-! ## A hand-built timestamp formatter and its round-trip -/

/-- Fixed-width two-digit decimal rendering. -/
def twoDigits (n : Nat) : List Char :=
  [Nat.digitChar (n / 10), Nat.digitChar (n % 10)]

/-- Fixed-width three-digit decimal rendering. -/
def threeDigits (n : Nat) : List Char :=
  [Nat.digitChar (n / 100), Nat.digitChar (n / 10 % 10), Nat.digitChar (n % 10)]

/-- Ordinary decimal rendering of a natural number. -/
def natToDecimal (n : Nat) : List Char :=
  if n = 0 then ['0'] else (Nat.digits 10 n).reverse.map Nat.digitChar

/-- The hand-built `H:MM:SS,mmm` formatter of the spec's round-trip property. -/
def formatTime (h m s ms : Nat) : List Char :=
  natToDecimal h ++ ':' :: (twoDigits m ++ ':' :: (twoDigits s ++ ',' :: threeDigits ms))

theorem digitChar_isDigit (d : Nat) (hd : d < 10) :
    (Nat.digitChar d).isDigit = true := by
  interval_cases d <;> decide

theorem digitChar_val (d : Nat) (hd : d < 10) :
    (Nat.digitChar d).toNat - 48 = d := by
  interval_cases d <;> decide

theorem digitsToNat_two (n : Nat) (hn : n < 100) :
    digitsToNat (twoDigits n) = n := by
  have e1 := digitChar_val (n / 10) (by omega)
  have e2 := digitChar_val (n % 10) (by omega)
  simp only [digitsToNat, twoDigits, List.foldl_cons, List.foldl_nil]
  omega

theorem digitsToNat_three (n : Nat) (hn : n < 1000) :
    digitsToNat (threeDigits n) = n := by
  have e1 := digitChar_val (n / 100) (by omega)
  have e2 := digitChar_val (n / 10 % 10) (by omega)
  have e3 := digitChar_val (n % 10) (by omega)
  simp only [digitsToNat, threeDigits, List.foldl_cons, List.foldl_nil]
  omega

theorem digitsToNat_rev_map (L : List Nat) (hL : ∀ d ∈ L, d < 10) :
    digitsToNat ((L.map Nat.digitChar).reverse) = Nat.ofDigits 10 L := by
  induction L with
  | nil => simp [digitsToNat]
  | cons d T ih =>
    have hd : d < 10 := hL d (by simp)
    have hT : ∀ e ∈ T, e < 10 := fun e he => hL e (by simp [he])
    have hv : (Nat.digitChar d).toNat - 48 = d := digitChar_val d hd
    have step : digitsToNat ((T.map Nat.digitChar).reverse ++ [Nat.digitChar d]) =
        digitsToNat ((T.map Nat.digitChar).reverse) * 10 + d := by
      unfold digitsToNat
      rw [List.foldl_append]
      simp [hv]
    simp only [List.map_cons, List.reverse_cons]
    rw [step, ih hT, Nat.ofDigits_cons]
    ring

theorem natToDecimal_digits (n : Nat) :
    natToDecimal n ≠ [] ∧ (∀ c ∈ natToDecimal n, c.isDigit = true) ∧
      digitsToNat (natToDecimal n) = n := by
  by_cases h0 : n = 0
  · subst h0; refine ⟨by decide, by decide, by decide⟩
  · have hmem : ∀ d ∈ Nat.digits 10 n, d < 10 :=
      fun d hd => Nat.digits_lt_base (by norm_num) hd
    refine ⟨?_, ?_, ?_⟩
    · simp only [natToDecimal, h0, if_false, reduceIte]
      simp [Nat.digits_ne_nil_iff_ne_zero.mpr h0]
    · intro c hc
      simp only [natToDecimal, h0, if_false, reduceIte] at hc
      rw [List.mem_map] at hc
      obtain ⟨d, hd, rfl⟩ := hc
      rw [List.mem_reverse] at hd
      exact digitChar_isDigit d (hmem d hd)
    · simp only [natToDecimal, h0, if_false, reduceIte]
      rw [show (Nat.digits 10 n).reverse.map Nat.digitChar =
          ((Nat.digits 10 n).map Nat.digitChar).reverse from
          List.map_reverse Nat.digitChar (Nat.digits 10 n)]
      rw [digitsToNat_rev_map _ hmem, Nat.ofDigits_digits]

theorem twoDigits_all (n : Nat) (hn : n < 100) : ∀ c ∈ twoDigits n, c.isDigit = true := by
  intro c hc
  simp only [twoDigits, List.mem_cons, List.not_mem_nil, or_false] at hc
  rcases hc with rfl | rfl
  · exact digitChar_isDigit _ (by omega)
  · exact digitChar_isDigit _ (by omega)

theorem threeDigits_all (n : Nat) (hn : n < 1000) : ∀ c ∈ threeDigits n, c.isDigit = true := by
  intro c hc
  simp only [threeDigits, List.mem_cons, List.not_mem_nil, or_false] at hc
  rcases hc with rfl | rfl | rfl
  · exact digitChar_isDigit _ (by omega)
  · exact digitChar_isDigit _ (by omega)
  · exact digitChar_isDigit _ (by omega)

/-- C1: for every timestamp string of the form `H:MM:SS,mmm` with in-range
components, `parse_time` returns exactly `((H*60+M)*60+S)*1000+mmm`
milliseconds; and for any `H`, `M`, `S`, `mmm` in range, formatting those
components and parsing the result recovers the same integer. -/
theorem parse_time_affine :
    (∀ r1 r2 r3 r4 : List Char,
      r1 ≠ [] → allDigits r1 = true →
      r2.length = 2 → allDigits r2 = true →
      r3.length = 2 → allDigits r3 = true →
      r4.length = 3 → allDigits r4 = true →
      digitsToNat r2 < 60 → digitsToNat r3 < 60 →
      parse_time (r1 ++ ':' :: (r2 ++ ':' :: (r3 ++ ',' :: r4))) =
        some (((digitsToNat r1 * 60 + digitsToNat r2) * 60 + digitsToNat r3) * 1000
          + digitsToNat r4)) ∧
    (∀ h m s ms : Nat, m < 60 → s < 60 → ms < 1000 →
      parse_time (formatTime h m s ms) = some (((h * 60 + m) * 60 + s) * 1000 + ms)) := by
  constructor
  · intro r1 r2 r3 r4 h1 d1 hl2 d2 hl3 d3 hl4 d4 _ _
    rw [parse_time_runs r1 r2 r3 r4 h1 (by simpa [allDigits, List.all_eq_true] using d1)
      (by intro h; subst h; simp at hl2) (by simpa [allDigits, List.all_eq_true] using d2)
      (by intro h; subst h; simp at hl3) (by simpa [allDigits, List.all_eq_true] using d3)
      (by intro h; subst h; simp at hl4) (by simpa [allDigits, List.all_eq_true] using d4)]
    congr 1
    ring
  · intro h m s ms hm hs hms
    obtain ⟨hne, hdig, hval⟩ := natToDecimal_digits h
    rw [formatTime, parse_time_runs (natToDecimal h) (twoDigits m) (twoDigits s)
        (threeDigits ms) hne hdig (by simp [twoDigits]) (twoDigits_all m (by omega))
        (by simp [twoDigits]) (twoDigits_all s (by omega)) (by simp [threeDigits])
        (threeDigits_all ms (by omega)), hval, digitsToNat_two m (by omega),
      digitsToNat_two s (by omega), digitsToNat_three ms (by omega)]
    congr 1
    ring

/-- Witness for C1 at concrete inputs. -/
theorem parse_time_affine_witness :
    parse_time (['0', '7'] ++ ':' :: (['0', '8'] ++ ':' :: (['0', '9'] ++ ',' :: ['0', '1', '0']))) =
      some (((digitsToNat ['0', '7'] * 60 + digitsToNat ['0', '8']) * 60 +
        digitsToNat ['0', '9']) * 1000 + digitsToNat ['0', '1', '0']) ∧
    parse_time (formatTime 12 34 56 789) = some (((12 * 60 + 34) * 60 + 56) * 1000 + 789) :=
  ⟨parse_time_affine.1 ['0', '7'] ['0', '8'] ['0', '9'] ['0', '1', '0']
    (by decide) (by decide) (by decide) (by decide) (by decide) (by decide)
    (by decide) (by decide) (by decide) (by decide),
   parse_time_affine.2 12 34 56 789 (by decide) (by decide) (by decide)⟩

/-! ## Behaviour of one combiner step -/

theorem combineStep_blank (cl ml : Option Int)
    (s : List CombinedCaption × List Char × Int) (cap : RawCaption)
    (hb : pyStrip cap.content = []) : combineStep cl ml s cap = s := by
  unfold combineStep
  simp [hb]

theorem combineStep_fresh (cl ml : Option Int) (comb : List CombinedCaption)
    (st : Int) (cap : RawCaption) (hb : pyStrip cap.content ≠ []) :
    combineStep cl ml (comb, [], st) cap = (comb, pyStrip cap.content, cap.start) := by
  unfold combineStep
  simp [hb]

theorem combineStep_merge (cl ml : Option Int) (comb : List CombinedCaption)
    (cur : List Char) (st : Int) (cap : RawCaption)
    (hcur : cur ≠ []) (hb : pyStrip cap.content ≠ [])
    (hmc : mergeCond cl ml (cur ++ ' ' :: pyStrip cap.content) cap.«end» st = true) :
    combineStep cl ml (comb, cur, st) cap = (comb, cur ++ ' ' :: pyStrip cap.content, st) := by
  unfold combineStep
  simp [hb, hcur, hmc]

theorem combineStep_close (cl ml : Option Int) (comb : List CombinedCaption)
    (cur : List Char) (st : Int) (cap : RawCaption)
    (hcur : cur ≠ []) (hb : pyStrip cap.content ≠ [])
    (hmc : mergeCond cl ml (cur ++ ' ' :: pyStrip cap.content) cap.«end» st = false) :
    combineStep cl ml (comb, cur, st) cap =
      (comb ++ [⟨cur, st, cap.start⟩], pyStrip cap.content, cap.start) := by
  unfold combineStep
  simp [hb, hcur, hmc]

theorem mergeCond_iff (cl ml : Option Int) (nc : List Char) (ce st : Int) :
    mergeCond cl ml nc ce st = true ↔
      ((∃ l, cl = some l ∧ (nc.length : Int) ≤ l) ∨
       (∃ l, ml = some l ∧ ce - st ≤ l)) := by
  unfold mergeCond
  cases cl <;> cases ml <;> simp

/-- C2: with an accumulator pending and a non-blank caption arriving, the
merge is accepted (accumulator text becomes the space-joined candidate, the
accumulator's start unchanged) exactly when `char_limit` is set and the
candidate's length is at most `char_limit`, or `millis_limit` is set and this
caption's end minus the accumulator's start is at most the duration limit;
with both limits set, either disjunct suffices. -/
theorem combine_merge_accepted_iff (cl ml : Option Int)
    (comb : List CombinedCaption) (cur : List Char) (st : Int) (cap : RawCaption)
    (hcur : cur ≠ []) (hcap : pyStrip cap.content ≠ []) :
    combineStep cl ml (comb, cur, st) cap = (comb, cur ++ ' ' :: pyStrip cap.content, st) ↔
      ((∃ l, cl = some l ∧ ((cur ++ ' ' :: pyStrip cap.content).length : Int) ≤ l) ∨
       (∃ l, ml = some l ∧ cap.«end» - st ≤ l)) := by
  rw [← mergeCond_iff cl ml (cur ++ ' ' :: pyStrip cap.content) cap.«end» st]
  cases hmc : mergeCond cl ml (cur ++ ' ' :: pyStrip cap.content) cap.«end» st with
  | true =>
    simp only [iff_true]
    exact combineStep_merge cl ml comb cur st cap hcur hcap hmc
  | false =>
    simp only [Bool.false_eq_true, iff_false]
    rw [combineStep_close cl ml comb cur st cap hcur hcap hmc]
    intro h
    have h1 : comb ++ [(⟨cur, st, cap.start⟩ : CombinedCaption)] = comb :=
      congrArg (fun p => p.1) h
    have := congrArg List.length h1
    simp at this

/-- Witness for C2 at a concrete state and caption. -/
theorem combine_merge_accepted_iff_witness :
    combineStep (some 100) none ([], ['a'], 5) ⟨2, ['b'], 6, 9⟩ =
      ([], ['a'] ++ ' ' :: pyStrip (['b'] : List Char), 5) :=
  (combine_merge_accepted_iff (some 100) none [] ['a'] 5 ⟨2, ['b'], 6, 9⟩
      (by decide) (by decide)).mpr
    (Or.inl ⟨100, rfl, by decide⟩)

/-! ## Invariants of the combiner loop -/

theorem combineStep_empty_inv (cl ml : Option Int)
    (s : List CombinedCaption × List Char × Int) (cap : RawCaption)
    (h : s.2.1 = [] → s.1 = []) :
    (combineStep cl ml s cap).2.1 = [] → (combineStep cl ml s cap).1 = [] := by
  obtain ⟨comb, cur, st⟩ := s
  by_cases hb : pyStrip cap.content = []
  · rw [combineStep_blank cl ml _ cap hb]
    exact h
  · by_cases hcur : cur = []
    · subst hcur
      rw [combineStep_fresh cl ml comb st cap hb]
      intro hx
      exact absurd hx hb
    · cases hmc : mergeCond cl ml (cur ++ ' ' :: pyStrip cap.content) cap.«end» st with
      | true =>
        rw [combineStep_merge cl ml comb cur st cap hcur hb hmc]
        intro hx
        simp at hx
      | false =>
        rw [combineStep_close cl ml comb cur st cap hcur hb hmc]
        intro hx
        exact absurd hx hb

theorem combine_fold_empty_inv (cl ml : Option Int) (l : List RawCaption)
    (s : List CombinedCaption × List Char × Int) (h : s.2.1 = [] → s.1 = []) :
    (l.foldl (combineStep cl ml) s).2.1 = [] → (l.foldl (combineStep cl ml) s).1 = [] := by
  induction l generalizing s with
  | nil => exact h
  | cons cap rest ih =>
    rw [List.foldl_cons]
    exact ih _ (combineStep_empty_inv cl ml s cap h)

/-- C3: when a pending combined caption is closed because a caption overflows
the budget, its `end` field is the start of the overflow-causing caption; and
the final pending combined caption emitted after the loop has `end` equal to
the `end` of the very last raw caption of the input sequence. -/
theorem combine_close_end_assignment :
    (∀ (cl ml : Option Int) (comb : List CombinedCaption) (cur : List Char)
      (st : Int) (cap : RawCaption), cur ≠ [] → pyStrip cap.content ≠ [] →
      mergeCond cl ml (cur ++ ' ' :: pyStrip cap.content) cap.«end» st = false →
      combineStep cl ml (comb, cur, st) cap =
        (comb ++ [⟨cur, st, cap.start⟩], pyStrip cap.content, cap.start)) ∧
    (∀ (srt_list : List RawCaption) (cl ml : Option Int),
      combine_captions srt_list cl ml ≠ [] →
      ∃ lastRaw lastOut, srt_list.getLast? = some lastRaw ∧
        (combine_captions srt_list cl ml).getLast? = some lastOut ∧
        lastOut.«end» = lastRaw.«end») := by
  constructor
  · exact combineStep_close
  · intro srt cl ml hne
    by_cases hc : (srt.foldl (combineStep cl ml) ([], [], 0)).2.1 = []
    · exfalso
      apply hne
      have h1 : (srt.foldl (combineStep cl ml) ([], [], 0)).1 = [] :=
        combine_fold_empty_inv cl ml srt ([], [], 0) (fun _ => rfl) hc
      unfold combine_captions
      simp [hc, h1]
    · cases hlast : srt.getLast? with
      | none =>
        rw [List.getLast?_eq_none_iff] at hlast
        subst hlast
        simp at hc
      | some lastRaw =>
        refine ⟨lastRaw, ⟨(srt.foldl (combineStep cl ml) ([], [], 0)).2.1,
          (srt.foldl (combineStep cl ml) ([], [], 0)).2.2, lastRaw.«end»⟩, rfl, ?_, rfl⟩
        unfold combine_captions
        simp only [hc, if_false, reduceIte, hlast]
        rw [List.getLast?_concat]

/-- Witness for C3 at concrete inputs. -/
theorem combine_close_end_assignment_witness :
    combineStep none none ([], ['a'], 0) ⟨1, ['b'], 7, 9⟩ =
      ([⟨['a'], 0, 7⟩], pyStrip (['b'] : List Char), 7) ∧
    ∃ lastRaw lastOut,
      ([⟨1, ['a'], 0, 5⟩] : List RawCaption).getLast? = some lastRaw ∧
      (combine_captions [⟨1, ['a'], 0, 5⟩] none none).getLast? = some lastOut ∧
      lastOut.«end» = lastRaw.«end» :=
  ⟨combine_close_end_assignment.1 none none [] ['a'] 0 ⟨1, ['b'], 7, 9⟩
      (by decide) (by decide) (by decide),
   combine_close_end_assignment.2 [⟨1, ['a'], 0, 5⟩] none none (by decide)⟩

/-! ## The combiner with no limits is a pass-through -/

/-- The trimmed contents of the non-blank raw captions, in order. -/
def nonBlankContents (l : List RawCaption) : List (List Char) :=
  (l.filter (fun c => decide (pyStrip c.content ≠ []))).map (fun c => pyStrip c.content)

theorem combineStep_ne_inv (cl ml : Option Int)
    (s : List CombinedCaption × List Char × Int) (cap : RawCaption)
    (h : s.2.1 ≠ []) : (combineStep cl ml s cap).2.1 ≠ [] := by
  obtain ⟨comb, cur, st⟩ := s
  by_cases hb : pyStrip cap.content = []
  · rw [combineStep_blank cl ml _ cap hb]
    exact h
  · cases hmc : mergeCond cl ml (cur ++ ' ' :: pyStrip cap.content) cap.«end» st with
    | true =>
      rw [combineStep_merge cl ml comb cur st cap h hb hmc]
      simp
    | false =>
      rw [combineStep_close cl ml comb cur st cap h hb hmc]
      exact hb

theorem combine_fold_ne_inv (cl ml : Option Int) (l : List RawCaption)
    (s : List CombinedCaption × List Char × Int) (h : s.2.1 ≠ []) :
    (l.foldl (combineStep cl ml) s).2.1 ≠ [] := by
  induction l generalizing s with
  | nil => exact h
  | cons cap rest ih =>
    rw [List.foldl_cons]
    exact ih _ (combineStep_ne_inv cl ml s cap h)

theorem combine_noLimit_pending (l : List RawCaption)
    (comb : List CombinedCaption) (cur : List Char) (st : Int) (hcur : cur ≠ []) :
    (l.foldl (combineStep none none) (comb, cur, st)).1.map (fun c => c.content) ++
        [(l.foldl (combineStep none none) (comb, cur, st)).2.1] =
      comb.map (fun c => c.content) ++ cur :: nonBlankContents l := by
  induction l generalizing comb cur st with
  | nil => simp [nonBlankContents]
  | cons cap rest ih =>
    rw [List.foldl_cons]
    by_cases hb : pyStrip cap.content = []
    · rw [combineStep_blank none none _ cap hb, ih comb cur st hcur]
      simp [nonBlankContents, hb]
    · rw [combineStep_close none none comb cur st cap hcur hb rfl,
        ih _ _ _ hb]
      simp [nonBlankContents, hb]

theorem combine_noLimit_fold (l : List RawCaption) :
    ((l.foldl (combineStep none none) ([], [], 0)).2.1 = [] →
      (l.foldl (combineStep none none) ([], [], 0)).1 = [] ∧ nonBlankContents l = []) ∧
    ((l.foldl (combineStep none none) ([], [], 0)).2.1 ≠ [] →
      (l.foldl (combineStep none none) ([], [], 0)).1.map (fun c => c.content) ++
          [(l.foldl (combineStep none none) ([], [], 0)).2.1] = nonBlankContents l) := by
  induction l with
  | nil => exact ⟨fun _ => ⟨rfl, rfl⟩, fun h => absurd rfl h⟩
  | cons cap rest ih =>
    by_cases hb : pyStrip cap.content = []
    · rw [List.foldl_cons, combineStep_blank none none _ cap hb]
      have hnbc : nonBlankContents (cap :: rest) = nonBlankContents rest := by
        simp [nonBlankContents, hb]
      rw [hnbc]
      exact ih
    · rw [List.foldl_cons, combineStep_fresh none none [] 0 cap hb]
      have hnbc : nonBlankContents (cap :: rest) =
          pyStrip cap.content :: nonBlankContents rest := by
        simp [nonBlankContents, hb]
      constructor
      · intro hc
        exact absurd hc
          (combine_fold_ne_inv none none rest ([], pyStrip cap.content, cap.start) hb)
      · intro _
        rw [hnbc]
        have h2 := combine_noLimit_pending rest [] (pyStrip cap.content) cap.start hb
        simpa using h2

/-- C4: with both limits absent, `combine_captions` returns exactly one
combined caption per raw caption whose trimmed content is non-empty, carrying
the trimmed content, in the original order: blank captions are dropped and no
merging occurs. -/
theorem combine_no_limits_passthrough (srt : List RawCaption) :
    (combine_captions srt none none).map (fun c => c.content) = nonBlankContents srt := by
  unfold combine_captions
  have hb := combine_noLimit_fold srt
  by_cases hc : (srt.foldl (combineStep none none) ([], [], 0)).2.1 = []
  · obtain ⟨h1, h2⟩ := hb.1 hc
    simp [hc, h1, h2]
  · have h2 := hb.2 hc
    cases hlast : srt.getLast? with
    | none =>
      rw [List.getLast?_eq_none_iff] at hlast
      subst hlast
      simp at hc
    | some lastCap =>
      simp only [hc, if_false, reduceIte, hlast, List.map_append]
      simpa using h2

/-! ## Inversion of the timing-pattern matcher -/

theorem matchGroupAt_inv (s g rest : List Char) (h : matchGroupAt s = some (g, rest)) :
    ∃ r1 r2 r3 r4 c, g = r1 ++ ':' :: (r2 ++ ':' :: (r3 ++ c :: r4)) ∧
      r1 ≠ [] ∧ (∀ x ∈ r1, x.isDigit = true) ∧
      r2 ≠ [] ∧ (∀ x ∈ r2, x.isDigit = true) ∧
      r3 ≠ [] ∧ (∀ x ∈ r3, x.isDigit = true) ∧
      r4 ≠ [] ∧ (∀ x ∈ r4, x.isDigit = true) ∧
      (c = ',' ∨ c = '.') := by
  unfold matchGroupAt at h
  split at h
  case _ p1 r1 s2 heq1 =>
    have hm1 : ∀ x ∈ r1, x.isDigit = true := by
      have hr : r1 = s.takeWhile Char.isDigit := by
        have := congrArg (fun p => p.1) heq1
        simpa [takeDigits] using this.symm
      intro x hx
      rw [hr] at hx
      exact List.mem_takeWhile_imp hx
    split at h
    · simp at h
    case _ hne1 =>
      split at h
      case _ p2 r2 s4 heq2 =>
        have hm2 : ∀ x ∈ r2, x.isDigit = true := by
          have hr : r2 = s2.takeWhile Char.isDigit := by
            have := congrArg (fun p => p.1) heq2
            simpa [takeDigits] using this.symm
          intro x hx
          rw [hr] at hx
          exact List.mem_takeWhile_imp hx
        split at h
        · simp at h
        case _ hne2 =>
          split at h
          case _ p3 r3 c s6 heq3 =>
            have hm3 : ∀ x ∈ r3, x.isDigit = true := by
              have hr : r3 = s4.takeWhile Char.isDigit := by
                have := congrArg (fun p => p.1) heq3
                simpa [takeDigits] using this.symm
              intro x hx
              rw [hr] at hx
              exact List.mem_takeWhile_imp hx
            split at h
            · simp at h
            case _ hne3 =>
              split at h
              case _ hsep =>
                split at h
                case _ p4 r4 s7 heq4 =>
                  have hm4 : ∀ x ∈ r4, x.isDigit = true := by
                    have hr : r4 = s6.takeWhile Char.isDigit := by
                      have := congrArg (fun p => p.1) heq4
                      simpa [takeDigits] using this.symm
                    intro x hx
                    rw [hr] at hx
                    exact List.mem_takeWhile_imp hx
                  split at h
                  · simp at h
                  case _ hne4 =>
                    rw [Option.some_inj, Prod.mk.injEq] at h
                    obtain ⟨hg, -⟩ := h
                    have hc : c = ',' ∨ c = '.' := by simpa using hsep
                    exact ⟨r1, r2, r3, r4, c, hg.symm, hne1, hm1, hne2, hm2,
                      hne3, hm3, hne4, hm4, hc⟩
              case _ => simp at h
          case _ => simp at h
      case _ => simp at h
  case _ => simp at h

theorem dotToComma_digit (x : Char) (hx : x.isDigit = true) : dotToComma x = x := by
  unfold dotToComma
  split
  case _ hd =>
    subst hd
    simp at hx
  case _ => rfl

theorem map_dotToComma_digits (l : List Char) (hd : ∀ x ∈ l, x.isDigit = true) :
    l.map dotToComma = l := by
  induction l with
  | nil => rfl
  | cons x t ih =>
    rw [List.map_cons, dotToComma_digit x (hd x (by simp)),
      ih (fun y hy => hd y (by simp [hy]))]

theorem matchGroupAt_parse_time (s g rest : List Char)
    (h : matchGroupAt s = some (g, rest)) :
    ∃ v, parse_time (g.map dotToComma) = some v := by
  obtain ⟨r1, r2, r3, r4, c, hg, hne1, hm1, hne2, hm2, hne3, hm3, hne4, hm4, hc⟩ :=
    matchGroupAt_inv s g rest h
  subst hg
  have hsep : dotToComma c = ',' := by
    rcases hc with rfl | rfl <;> rfl
  rw [List.map_append, List.map_cons, List.map_append, List.map_cons,
    List.map_append, List.map_cons, map_dotToComma_digits r1 hm1,
    map_dotToComma_digits r2 hm2, map_dotToComma_digits r3 hm3,
    map_dotToComma_digits r4 hm4, hsep]
  rw [show dotToComma ':' = ':' from rfl]
  exact ⟨_, parse_time_runs r1 r2 r3 r4 hne1 hm1 hne2 hm2 hne3 hm3 hne4 hm4⟩

theorem matchTimingAt_inv (t g1 g2 : List Char)
    (h : matchTimingAt t = some (g1, g2)) :
    (∃ r1, matchGroupAt t = some (g1, r1)) ∧
      (∃ t2 r2, matchGroupAt t2 = some (g2, r2)) := by
  unfold matchTimingAt at h
  split at h
  · simp at h
  case _ ga rest heq =>
    split at h
    · split at h
      · simp at h
      case _ gb r2 heq2 =>
        rw [Option.some_inj, Prod.mk.injEq] at h
        obtain ⟨rfl, rfl⟩ := h
        exact ⟨⟨rest, heq⟩, ⟨rest.drop 5, r2, heq2⟩⟩
    · simp at h

theorem searchTiming_inv (s : List Char) (g1 g2 : List Char)
    (h : searchTiming s = some (g1, g2)) :
    ∃ t, matchTimingAt t = some (g1, g2) := by
  induction s with
  | nil => simp [searchTiming] at h
  | cons c rest ih =>
    unfold searchTiming at h
    split at h
    case _ r heq =>
      rw [Option.some_inj] at h
      subst h
      exact ⟨c :: rest, heq⟩
    case _ => exact ih h

theorem searchTiming_extracts (line g1 g2 : List Char)
    (h : searchTiming line = some (g1, g2)) :
    (∃ v1, parse_time (g1.map dotToComma) = some v1) ∧
      (∃ v2, parse_time (g2.map dotToComma) = some v2) := by
  obtain ⟨t, ht⟩ := searchTiming_inv line g1 g2 h
  obtain ⟨⟨r1, h1⟩, ⟨t2, r2, h2⟩⟩ := matchTimingAt_inv t g1 g2 ht
  exact ⟨matchGroupAt_parse_time t g1 r1 h1, matchGroupAt_parse_time t2 g2 r2 h2⟩

/-- C9: whenever a block's timing line matches the two-timestamp grammar,
every numeric component of both timestamps is extractable: `parse_time`
succeeds on both normalized captured groups, so the extraction-failure path
of `parse_time` (and its `FormatError`) is unreachable from `parse_srt`, and
the claim holds vacuously. -/
theorem timing_components_always_extract (line g1 g2 : List Char)
    (h : searchTiming line = some (g1, g2)) :
    (∃ v1, parse_time (g1.map dotToComma) = some v1) ∧
      (∃ v2, parse_time (g2.map dotToComma) = some v2) :=
  searchTiming_extracts line g1 g2 h

/-- Witness for C9 at a concrete timing line. -/
theorem timing_components_always_extract_witness :
    (∃ v1, parse_time (("0:0:1,0".data).map dotToComma) = some v1) ∧
      (∃ v2, parse_time (("0:0:2.5".data).map dotToComma) = some v2) :=
  timing_components_always_extract "x 0:0:1,0 --> 0:0:2.5 y".data
    "0:0:1,0".data "0:0:2.5".data (by decide)

/-! ## Per-block behaviour of the parser -/

/-- The start/end milliseconds a block's timing line yields, when an arrow
line exists, its timing pattern matches and both timestamps parse. -/
def blockTimes (block : List Char) : Option (Nat × Nat) :=
  match (splitLines block).findIdx? (fun line => containsSub arrowToken line) with
  | none => none
  | some i =>
    match searchTiming ((splitLines block).getD i []) with
    | none => none
    | some (g1, g2) =>
      match parse_time (g1.map dotToComma), parse_time (g2.map dotToComma) with
      | some st, some en => some (st, en)
      | _, _ => none

theorem parseBlock_cases (b : List Char) (idx : Nat) :
    (pyStrip b = [] ∧ parseBlock b idx = .ok none) ∨
    (pyStrip b ≠ [] ∧ blockTimes b = none ∧ parseBlock b idx = .ok none) ∨
    (∃ st en, pyStrip b ≠ [] ∧ blockTimes b = some (st, en) ∧
      ((st > en ∧ parseBlock b idx = .error (blockErrMsg b)) ∨
       (¬ st > en ∧ parseBlock b idx = .ok (some ⟨idx,
          pyStrip (joinLines ((splitLines b).drop
            (((splitLines b).findIdx? (fun line => containsSub arrowToken line)).getD 0 + 1))),
          (st : Int), (en : Int)⟩)))) := by
  by_cases hb : pyStrip b = []
  · left
    refine ⟨hb, ?_⟩
    unfold parseBlock
    simp [hb]
  · right
    cases hfind : (splitLines b).findIdx? (fun line => containsSub arrowToken line) with
    | none =>
      left
      refine ⟨hb, ?_, ?_⟩
      · unfold blockTimes
        rw [hfind]
      · unfold parseBlock
        simp only [hb, if_false, reduceIte]
        rw [hfind]
    | some i =>
      cases hst : searchTiming ((splitLines b).getD i []) with
      | none =>
        left
        refine ⟨hb, ?_, ?_⟩
        · unfold blockTimes
          simp only [hfind, hst]
        · unfold parseBlock
          simp only [hb, if_false, reduceIte]
          simp only [hfind, hst]
      | some g =>
        obtain ⟨g1, g2⟩ := g
        obtain ⟨⟨v1, hv1⟩, ⟨v2, hv2⟩⟩ := searchTiming_extracts _ g1 g2 hst
        right
        refine ⟨v1, v2, hb, ?_, ?_⟩
        · unfold blockTimes
          simp only [hfind, hst, hv1, hv2]
        · by_cases hgt : v1 > v2
          · left
            refine ⟨hgt, ?_⟩
            unfold parseBlock
            simp only [hb, if_false, reduceIte]
            simp only [hfind, hst, hv1, hv2]
            simp [hgt]
          · right
            refine ⟨hgt, ?_⟩
            unfold parseBlock
            simp only [hb, if_false, reduceIte]
            simp only [hfind, hst, hv1, hv2]
            simp [hgt, hfind]

/-! ## Blank input and blank blocks -/

theorem pyStrip_eq_nil_iff (s : List Char) :
    pyStrip s = [] ↔ ∀ c ∈ s, isPySpace c = true := by
  unfold pyStrip
  rw [List.reverse_eq_nil_iff, List.dropWhile_eq_nil_iff]
  constructor
  · intro h c hc
    have hsplit := List.takeWhile_append_dropWhile isPySpace s
    rw [← hsplit] at hc
    rcases List.mem_append.mp hc with hin | hin
    · exact List.mem_takeWhile_imp hin
    · exact h c (List.mem_reverse.mpr hin)
  · intro h c hc
    rw [List.mem_reverse] at hc
    have hsub : c ∈ s := by
      have hsplit := List.takeWhile_append_dropWhile isPySpace s
      rw [← hsplit]
      exact List.mem_append.mpr (Or.inr hc)
    exact h c hsub

theorem splitBlocks_cons_eq (c0 : Char) (rest : List Char)
    (hne0 : ∀ r, c0 = '\n' → rest = '\n' :: r → False) :
    splitBlocks (c0 :: rest) =
      (match splitBlocks rest with
       | [] => [[c0]]
       | l :: ls => (c0 :: l) :: ls) := by
  rw [splitBlocks.eq_def]
  split
  case _ heq => cases heq
  case _ r heq =>
    injection heq with h1 h2
    exact (hne0 r h1 h2).elim
  case _ c r hguard hx =>
    injection hx with h1 h2
    subst h1
    subst h2
    rfl

theorem splitBlocks_all_space (s : List Char) :
    (∀ c ∈ s, isPySpace c = true) → ∀ b ∈ splitBlocks s, ∀ c ∈ b, isPySpace c = true := by
  induction s using splitBlocks.induct with
  | case1 =>
    intro _ b hb c hc
    simp only [splitBlocks, List.mem_singleton] at hb
    subst hb
    simp at hc
  | case2 rest ih =>
    intro h b hb c hc
    have hrest : ∀ x ∈ rest, isPySpace x = true := fun x hx => h x (by simp [hx])
    simp only [splitBlocks, List.mem_cons] at hb
    rcases hb with rfl | hb
    · simp at hc
    · exact ih hrest b hb c hc
  | case3 c0 rest hne0 hnil ih =>
    intro h b hb x hx
    have hc0 : isPySpace c0 = true := h c0 (by simp)
    have hrest : ∀ y ∈ rest, isPySpace y = true := fun y hy => h y (by simp [hy])
    rw [splitBlocks_cons_eq c0 rest hne0, hnil] at hb
    simp only [List.mem_singleton] at hb
    subst hb
    rcases List.mem_cons.mp hx with rfl | hx2
    · exact hc0
    · simp at hx2
  | case4 c0 rest hne0 l ls heq ih =>
    intro h b hb x hx
    have hc0 : isPySpace c0 = true := h c0 (by simp)
    have hrest : ∀ y ∈ rest, isPySpace y = true := fun y hy => h y (by simp [hy])
    rw [splitBlocks_cons_eq c0 rest hne0, heq] at hb
    simp only [List.mem_cons] at hb
    rcases hb with rfl | hb
    · rcases List.mem_cons.mp hx with rfl | hx2
      · exact hc0
      · exact ih hrest l (by rw [heq]; simp) x hx2
    · exact ih hrest b (by rw [heq]; simp [hb]) x hx

/-! ## Skipped blocks and failing blocks in the block loop -/

theorem blockTimes_none_of_skip (b : List Char)
    (h : (splitLines b).findIdx? (fun line => containsSub arrowToken line) = none ∨
      ∃ i, (splitLines b).findIdx? (fun line => containsSub arrowToken line) = some i ∧
        searchTiming ((splitLines b).getD i []) = none) :
    blockTimes b = none := by
  unfold blockTimes
  rcases h with h | ⟨i, hi, hs⟩
  · simp only [h]
  · simp only [hi, hs]

theorem parseBlock_skip (b : List Char) (idx : Nat) (hbt : blockTimes b = none) :
    parseBlock b idx = .ok none := by
  rcases parseBlock_cases b idx with ⟨-, h⟩ | ⟨-, -, h⟩ | ⟨st, en, -, hsome, -⟩
  · exact h
  · exact h
  · rw [hbt] at hsome
    cases hsome

/-- C6: a non-empty block with no ` --> ` line, or whose timing line does not
match the two-timestamp grammar, is skipped entirely: removing it from the
block sequence leaves the result of the block loop unchanged, so it
contributes no caption and causes no failure. -/
theorem block_without_timing_skipped (b : List Char) (hne : pyStrip b ≠ [])
    (h : (splitLines b).findIdx? (fun line => containsSub arrowToken line) = none ∨
      ∃ i, (splitLines b).findIdx? (fun line => containsSub arrowToken line) = some i ∧
        searchTiming ((splitLines b).getD i []) = none) :
    ∀ (pre post : List (List Char)) (idx : Nat),
      parseBlocks (pre ++ b :: post) idx = parseBlocks (pre ++ post) idx := by
  have hskip : ∀ j, parseBlock b j = .ok none :=
    fun j => parseBlock_skip b j (blockTimes_none_of_skip b h)
  intro pre post idx
  induction pre generalizing idx with
  | nil =>
    simp only [List.nil_append]
    conv_lhs => rw [parseBlocks.eq_def]
    simp [hskip idx]
  | cons p ps ih =>
    simp only [List.cons_append]
    unfold parseBlocks
    cases hp : parseBlock p idx with
    | error e => rfl
    | ok r =>
      cases r with
      | none => exact ih idx
      | some cap => rw [ih (idx + 1)]

/-- Witness for C6 at a concrete arrow-less block. -/
theorem block_without_timing_skipped_witness :
    parseBlocks ([] ++ "hello".data :: []) 1 = parseBlocks ([] ++ []) 1 :=
  block_without_timing_skipped "hello".data (by decide) (Or.inl (by decide)) [] [] 1

theorem parseBlocks_error_of_bad (blocks : List (List Char)) (idx : Nat)
    (h : ∃ b ∈ blocks, pyStrip b ≠ [] ∧ ∃ st en, blockTimes b = some (st, en) ∧ st > en) :
    ∃ b ∈ blocks, (pyStrip b ≠ [] ∧ ∃ st en, blockTimes b = some (st, en) ∧ st > en) ∧
      parseBlocks blocks idx = .error (blockErrMsg b) := by
  induction blocks generalizing idx with
  | nil => simp at h
  | cons b0 bs ih =>
    by_cases hbad : pyStrip b0 ≠ [] ∧ ∃ st en, blockTimes b0 = some (st, en) ∧ st > en
    · obtain ⟨hne, st, en, hbt, hgt⟩ := hbad
      have herr : parseBlock b0 idx = .error (blockErrMsg b0) := by
        rcases parseBlock_cases b0 idx with ⟨he, -⟩ | ⟨-, hn, -⟩ | ⟨st2, en2, -, hbt2, hc⟩
        · exact absurd he hne
        · rw [hbt] at hn
          cases hn
        · rw [hbt] at hbt2
          rw [Option.some_inj, Prod.mk.injEq] at hbt2
          obtain ⟨rfl, rfl⟩ := hbt2
          rcases hc with ⟨-, he⟩ | ⟨hng, -⟩
          · exact he
          · exact absurd hgt hng
      refine ⟨b0, by simp, ⟨hne, st, en, hbt, hgt⟩, ?_⟩
      unfold parseBlocks
      simp only [herr]
    · have hex : ∃ b ∈ bs, pyStrip b ≠ [] ∧
          ∃ st en, blockTimes b = some (st, en) ∧ st > en := by
        obtain ⟨b, hmem, hbadb⟩ := h
        rcases List.mem_cons.mp hmem with rfl | hmem2
        · exact absurd hbadb hbad
        · exact ⟨b, hmem2, hbadb⟩
      rcases parseBlock_cases b0 idx with ⟨-, hok⟩ | ⟨-, -, hok⟩ | ⟨st, en, hne0, hbt0, hc⟩
      · obtain ⟨b, hmem, hbadb, herr⟩ := ih idx hex
        refine ⟨b, by simp [hmem], hbadb, ?_⟩
        unfold parseBlocks
        simp only [hok]
        exact herr
      · obtain ⟨b, hmem, hbadb, herr⟩ := ih idx hex
        refine ⟨b, by simp [hmem], hbadb, ?_⟩
        unfold parseBlocks
        simp only [hok]
        exact herr
      · rcases hc with ⟨hgt, -⟩ | ⟨hng, hok⟩
        · exact absurd ⟨hne0, st, en, hbt0, hgt⟩ hbad
        · obtain ⟨b, hmem, hbadb, herr⟩ := ih (idx + 1) hex
          refine ⟨b, by simp [hmem], hbadb, ?_⟩
          unfold parseBlocks
          simp only [hok, herr]

/-- C8: on input that is empty or all whitespace, the parse fails with the
empty-input error and returns no captions. -/
theorem parse_empty_input (srt : List Char) (cl ml : Option Int)
    (h : ∀ c ∈ srt, isPySpace c = true) :
    parse_srt srt cl ml = .error emptyErrMsg := by
  unfold parse_srt
  rw [if_pos ((pyStrip_eq_nil_iff srt).mpr h)]

/-- Witness for C8 on a concrete whitespace-only input. -/
theorem parse_empty_input_witness :
    parse_srt " \n".data none none = .error emptyErrMsg :=
  parse_empty_input " \n".data none none (by decide)

/-- C5: an input containing a non-blank block whose timing line parses to
`start > end` makes the whole parse fail with an error whose text embeds that
block's raw text; no caption list is returned. -/
theorem parse_bad_block_fails (srt : List Char) (cl ml : Option Int)
    (h : ∃ b ∈ splitBlocks (headerStrip srt), pyStrip b ≠ [] ∧
      ∃ st en, blockTimes b = some (st, en) ∧ st > en) :
    ∃ b ∈ splitBlocks (headerStrip srt),
      (pyStrip b ≠ [] ∧ ∃ st en, blockTimes b = some (st, en) ∧ st > en) ∧
      parse_srt srt cl ml =
        .error (("Error parsing block: Start time must be less than or equal to " ++
          "end time in block: ").data ++ b) := by
  have hne : pyStrip srt ≠ [] := by
    intro hnil
    have hsp : ∀ c ∈ srt, isPySpace c = true := (pyStrip_eq_nil_iff srt).mp hnil
    have hstrip : headerStrip srt = srt := by
      unfold headerStrip
      rw [hnil]
      simp [splitLines]
    rw [hstrip] at h
    obtain ⟨b, hmem, hbne, -⟩ := h
    exact hbne ((pyStrip_eq_nil_iff b).mpr (splitBlocks_all_space srt hsp b hmem))
  obtain ⟨b, hmem, hbad, herr⟩ :=
    parseBlocks_error_of_bad (splitBlocks (headerStrip srt)) 1 h
  refine ⟨b, hmem, hbad, ?_⟩
  unfold parse_srt
  rw [if_neg hne]
  simp only [herr]
  rfl

/-- Witness for C5 on a concrete input whose block runs backwards in time. -/
theorem parse_bad_block_fails_witness :
    ∃ b ∈ splitBlocks (headerStrip "1\n00:00:05,000 --> 00:00:04,000\nX".data),
      (pyStrip b ≠ [] ∧ ∃ st en, blockTimes b = some (st, en) ∧ st > en) ∧
      parse_srt "1\n00:00:05,000 --> 00:00:04,000\nX".data none none =
        .error (("Error parsing block: Start time must be less than or equal to " ++
          "end time in block: ").data ++ b) :=
  parse_bad_block_fails "1\n00:00:05,000 --> 00:00:04,000\nX".data none none
    ⟨"1\n00:00:05,000 --> 00:00:04,000\nX".data, by decide,
      by decide, 5000, 4000, by decide, by decide⟩

/-! ## The WEBVTT header-stripping step -/

theorem dropMeta_eq_dropWhile (ls : List (List Char)) :
    dropMeta ls = ls.dropWhile isMetaLine := by
  induction ls with
  | nil => rfl
  | cons l t ih =>
    by_cases hm : isMetaLine l = true
    · simp [dropMeta, hm, List.dropWhile_cons, ih]
    · simp [dropMeta, hm, List.dropWhile_cons]

/-- C7 counterexample: the input `" WEBVTT\n\nHi"` does not start with the
WEBVTT header token (its first line begins with a space), yet the
header-stripping step modifies it, because the source checks the first line
of the whitespace-stripped text. -/
theorem header_strip_untouched_counterexample :
    "WEBVTT".data.isPrefixOf ((splitLines " WEBVTT\n\nHi".data).headD []) = false ∧
    headerStrip " WEBVTT\n\nHi".data ≠ " WEBVTT\n\nHi".data := by
  constructor
  · decide
  · decide

/-- C7 (amended): when the first line of the whitespace-stripped input starts
with the WEBVTT header token, the stripping step drops the header line and the
immediately following metadata lines (lines containing a colon-space separator,
or blank lines) before block-splitting; period millisecond separators are
normalized, so the example WEBVTT input yields one caption `Hi`/1000/2000; an
input whose stripped text's first line does not begin with the header token is
left untouched by this step. -/
theorem header_strip_spec :
    (∀ srt : List Char,
      "WEBVTT".data.isPrefixOf ((splitLines (pyStrip srt)).headD []) = false →
      headerStrip srt = srt) ∧
    (∀ srt : List Char,
      "WEBVTT".data.isPrefixOf ((splitLines (pyStrip srt)).headD []) = true →
      headerStrip srt = joinLines ((splitLines (pyStrip srt)).dropWhile isMetaLine)) ∧
    parse_srt "WEBVTT\n\n00:00:01.000 --> 00:00:02.000\nHi".data none none =
      .ok [⟨"Hi".data, 1000, 2000⟩] := by
  refine ⟨?_, ?_, ?_⟩
  · intro srt hp
    show (if "WEBVTT".data.isPrefixOf ((splitLines (pyStrip srt)).headD []) = true then
        joinLines (dropMeta (splitLines (pyStrip srt))) else srt) = srt
    rw [hp]
    simp
  · intro srt hp
    show (if "WEBVTT".data.isPrefixOf ((splitLines (pyStrip srt)).headD []) = true then
        joinLines (dropMeta (splitLines (pyStrip srt))) else srt) =
      joinLines ((splitLines (pyStrip srt)).dropWhile isMetaLine)
    rw [hp]
    simp [dropMeta_eq_dropWhile]
  · rfl

/-- Witness for the amended C7 on a concrete header-less input. -/
theorem header_strip_spec_witness :
    headerStrip "Hi".data = "Hi".data :=
  header_strip_spec.1 "Hi".data (by decide)

/-! ## Order-violating output of the combiner -/

/-- Two blocks, each with `start ≤ end`, given out of chronological order. -/
def outOfOrderInput : List Char :=
  "1\n00:00:05,000 --> 00:00:06,000\nA\n\n2\n00:00:01,000 --> 00:00:02,000\nB".data

/-- C10: on an input whose blocks are each individually valid but out of
chronological order, the parse succeeds (raw captions keep `start ≤ end`) and
the combiner emits a combined caption whose `end` is strictly below its
`start`, because a closed caption's `end` is taken from the next caption's
start. -/
theorem combiner_order_violation :
    parseBlocks (splitBlocks (headerStrip outOfOrderInput)) 1 =
      .ok [⟨1, "A".data, 5000, 6000⟩, ⟨2, "B".data, 1000, 2000⟩] ∧
    parse_srt outOfOrderInput none none =
      .ok [⟨"A".data, 5000, 1000⟩, ⟨"B".data, 1000, 2000⟩] ∧
    (⟨"A".data, 5000, 1000⟩ : CombinedCaption).«end» <
      (⟨"A".data, 5000, 1000⟩ : CombinedCaption).start := by
  refine ⟨rfl, rfl, by decide⟩
